import Mathlib

/-!
Formal model of the Test Run Orchestration and Debug Synchronization
subsystem of the `vscode-test-runner` extension.

The definitions below are shallow embeddings of the TypeScript source:
`escapeRe`, `AngularTestRunner.prepareArgs`, `AngularTestRunner.debug`,
`AngularTestRunner.createWaitServer`, `AngularTestRunner.getReporters`
(the text-scan part after the file read), and the continuous-run
listener installed by `createRunHandler` in the extension entry point.
Strings are modelled as Lean `String` (lists of characters); JavaScript
string helpers (`indexOf`, `slice`, `split`, first-occurrence `replace`,
`trim`) are modelled explicitly at the character-list level; the regular
expressions produced for `--grep` are given an executable matching
semantics covering exactly the constructs the generated patterns use
(start anchor, alternation, backslash-escaped literals, `$` end anchor).
-/

/-! ## Regex escaping (source: `escapeRe`, line 10 of the runner module)

`const escapeRe = (s) => s.replace(/[.*+\-?^${}()|[\]\\]/g, '\\$&')`
-/

/-- The character class of `escapeRe`: every regex-special character the
source escapes. -/
def reSpecials : List Char :=
  ['.', '*', '+', '-', '?', '^', '$', '\x7b', '\x7d', '(', ')', '|', '[', ']', '\\']

def isReSpecial (c : Char) : Bool := reSpecials.contains c

/-- Character-list form of `escapeRe`: each special character is replaced
by a backslash followed by the character (`'\\$&'`). -/
def escList : List Char → List Char
  | [] => []
  | c :: rest => if isReSpecial c then '\\' :: c :: escList rest else c :: escList rest

/-- `escapeRe` from the source. -/
def escapeRe (s : String) : String := ⟨escList s.data⟩

/-- A test name "contains regex metacharacters" when some character of it
is in the class escaped by `escapeRe`. -/
def hasRegexMeta (s : String) : Bool := s.data.any isReSpecial

/-! ## Matching semantics for the generated grep patterns

`prepareArgs` pushes the token `/^(${grepRe.join('|')})/` where each
alternation branch is `escapeRe(fullName)` followed by `'$'` (Case) or
`' '` (Suite).  The only regex constructs occurring in the body are
backslash escapes, `|`, and the `$` end anchor, and the whole body is
wrapped in `^( ... )` and tested unanchored at the end.  We model a
branch as a sequence of atoms and `test` of `/^(body)/` as: some branch,
matched from position 0 with a free tail, succeeds. -/

inductive RAtom where
  | ch (c : Char)
  | endA
deriving DecidableEq, Repr

mutual

/-- Parse one alternation branch: `\c` is the literal `c`, a bare `$` is
the end anchor, any other character is a literal. -/
def parseAtoms : List Char → List RAtom
  | [] => []
  | c :: rest =>
    if c = '\\' then parseEsc rest
    else if c = '$' then RAtom.endA :: parseAtoms rest
    else RAtom.ch c :: parseAtoms rest

/-- Parse the character following a backslash as a literal. -/
def parseEsc : List Char → List RAtom
  | [] => []
  | c2 :: rest2 => RAtom.ch c2 :: parseAtoms rest2

end

/-- Match a branch against the input starting at position 0; when the
atoms are exhausted the rest of the input is unconstrained (the pattern
`/^(...)/` is not end-anchored, except via an explicit `$` atom). -/
def atomsMatch : List RAtom → List Char → Bool
  | [], _ => true
  | RAtom.endA :: rest, s =>
    match s with
    | [] => atomsMatch rest []
    | _ :: _ => false
  | RAtom.ch c :: rest, s =>
    match s with
    | [] => false
    | c2 :: s2 => c == c2 && atomsMatch rest s2

/-- Boolean list-prefix test (used to state matching results). -/
def isPre : List Char → List Char → Bool
  | [], _ => true
  | _ :: _, [] => false
  | a :: as, b :: bs => a == b && isPre as bs

mutual

/-- A branch is clean when it contains no unescaped `|` and no dangling
backslash.  Every branch that `prepareArgs` produces is clean, because
`escapeRe` escapes `|` and `\`. -/
def escClean : List Char → Bool
  | [] => true
  | c :: rest =>
    if c = '\\' then escCleanEsc rest
    else if c = '|' then false
    else escClean rest

/-- A backslash must be followed by at least one character. -/
def escCleanEsc : List Char → Bool
  | [] => false
  | _ :: rest2 => escClean rest2

end

/-- Prepend a character to the first branch of a split result. -/
def consHead (c : Char) : List (List Char) → List (List Char)
  | [] => [[c]]
  | b :: bs => (c :: b) :: bs

mutual

/-- Split the body of the alternation on unescaped `|` (a `\c` pair is
an indivisible unit), recovering the branches of `/^(b1|b2|...)/`. -/
def splitAlt : List Char → List (List Char)
  | [] => [[]]
  | c :: rest =>
    if c = '|' then [] :: splitAlt rest
    else if c = '\\' then splitAltEsc rest
    else consHead c (splitAlt rest)

/-- Keep a backslash-escape pair inside the current branch. -/
def splitAltEsc : List Char → List (List Char)
  | [] => [['\\']]
  | c2 :: rest2 => consHead '\\' (consHead c2 (splitAlt rest2))

end

/-- `Array.prototype.join('|')` from the source (`grepRe.join('|')`). -/
def joinBar : List String → String
  | [] => ""
  | [s] => s
  | s :: rest => s ++ "|" ++ joinBar rest

/-- `new RegExp("^(" ++ body ++ ")").test(name)` for the generated
pattern subset: some alternation branch matches at position 0. -/
def jsRegexTest (body : String) (name : String) : Bool :=
  (splitAlt body.data).any (fun br => atomsMatch (parseAtoms br) name.data)

/-! ## Test tree selection and `prepareArgs`
(source: `AngularTestRunner.prepareArgs`, lines 127-176)

A selected `vscode.TestItem` carries its `itemData` (a `TestCase`,
`TestSuite` or `TestFile`) and its parent chain.  `TestFile` data is
modelled by the forward-slash-normalized workspace-relative path the
source computes in `addTestFileRunPath`
(`path.relative(workspaceFolder, uri).replace(/\\/g, '/')`). -/

inductive ItemData where
  | tcase (fullName : String)
  | tsuite (fullName : String)
  | tfile (runPath : String)
deriving DecidableEq, Repr

structure TItem where
  data : ItemData
  ancestors : List ItemData
deriving DecidableEq, Repr

/-- The run paths contributed by the `for (let p = test.parent; p; p = p.parent)`
walk: every `TestFile` ancestor's path, nearest parent first. -/
def ancestorFilePaths (it : TItem) : List String :=
  it.ancestors.filterMap (fun d =>
    match d with
    | ItemData.tfile p => some p
    | _ => none)

/-- The run paths an item contributes overall: a `File` item contributes
its own path, a `Case`/`Suite` contributes its `TestFile` ancestors. -/
def itemRunPaths (it : TItem) : List String :=
  match it.data with
  | ItemData.tfile p => [p]
  | _ => ancestorFilePaths it

/-- The name-match expression `grepRe.push(...)` produces for an item:
`escapeRe(fullName)` plus `'$'` for a Case and `' '` for a Suite;
nothing for a File. -/
def grepExprOf : ItemData → Option String
  | ItemData.tcase n => some (escapeRe n ++ "$")
  | ItemData.tsuite n => some (escapeRe n ++ " ")
  | ItemData.tfile _ => none

/-- `Set.prototype.add`: insertion-ordered, duplicates ignored. -/
def insertPath (paths : List String) (p : String) : List String :=
  if p ∈ paths then paths else paths ++ [p]

def isCaseItem : ItemData → Bool
  | ItemData.tcase _ => true
  | _ => false

/-- One iteration of the `for (const test of filter)` loop: accumulate
`(grepRe, runPaths)`. -/
def collectStep (acc : List String × List String) (it : TItem) : List String × List String :=
  match it.data with
  | ItemData.tcase n =>
    (acc.1 ++ [escapeRe n ++ "$"], (ancestorFilePaths it).foldl insertPath acc.2)
  | ItemData.tsuite n =>
    (acc.1 ++ [escapeRe n ++ " "], (ancestorFilePaths it).foldl insertPath acc.2)
  | ItemData.tfile p => (acc.1, insertPath acc.2 p)

/-- The Selection Resolver: `(grepRe, runPaths)` after the loop. -/
def collectFilter (items : List TItem) : List String × List String :=
  items.foldl collectStep ([], [])

/-- Inputs of `prepareArgs` that come from configuration discovery and
the constructor: `getConfigName()` result, `getReporters()` result, the
continuous flag, and whether the profile kind is Coverage.  (`undefined`
for the coverage flag and empty strings are both falsy and removed by
`args.filter(x => !!x)`.) -/
structure RunnerCfg where
  configName : String
  reporters : String
  continuousMode : Bool
  coverage : Bool
deriving DecidableEq, Repr

/-- The fixed and configuration-derived part of the argument vector,
after `args.filter(x => !!x)`. -/
def baseArgList (cfg : RunnerCfg) (baseArgs : List String) : List String :=
  (["npm", "test", "--"] ++ baseArgs ++
    [cfg.configName, cfg.reporters,
     if cfg.continuousMode then "--watch" else "--no-watch",
     "--browsers=ChromeHeadless"] ++
    (if cfg.coverage then ["--code-coverage"] else [])).filter (fun x => x ≠ "")

/-- The single `--grep` value: `/^(${grepRe.join('|')})/`. -/
def grepToken (g : List String) : String := "/^(" ++ joinBar g ++ ")/"

/-- `AngularTestRunner.prepareArgs`.  With no filter, only the base args
are returned; otherwise `--grep` is pushed when some name expression was
collected and `--run <path>` pairs are pushed for the collected paths. -/
def prepareArgs (cfg : RunnerCfg) (baseArgs : List String)
    (filter : Option (List TItem)) : List String :=
  let args := baseArgList cfg baseArgs
  match filter with
  | none => args
  | some items =>
    let gr := collectFilter items
    let args2 := if gr.1 = [] then args else args ++ ["--grep", grepToken gr.1]
    if gr.2 = [] then args2 else args2 ++ gr.2.flatMap (fun p => ["--run", p])

/-- The safety condition C1 needs on the rest of a selection: its name
must not make the item match test names under `"FooBar "` (the item is
not the `"FooBar"` suite itself, and no full name reaches under
`"FooBar "`). -/
def noFooBarData : ItemData → Bool
  | ItemData.tcase n => !(isPre "FooBar ".data n.data)
  | ItemData.tsuite n => !(n.data == "FooBar".data) && !(isPre "FooBar ".data n.data)
  | ItemData.tfile _ => true

/-- A runner configuration with no discovered config file, no reporters,
non-continuous, non-coverage (used for concrete instances). -/
def cfg0 : RunnerCfg := ⟨"", "", false, false⟩

/-- A selection of two `File` items with distinct paths. -/
def itemsTwoFiles : List TItem :=
  [⟨ItemData.tfile "src/a.spec.ts", []⟩, ⟨ItemData.tfile "src/b.spec.ts", []⟩]

/-- A selection containing the Suite `"Foo"` and its sibling Suite
`"FooBar"`, both under one file. -/
def itemsFooBoth : List TItem :=
  [⟨ItemData.tsuite "Foo", [ItemData.tfile "src/a.spec.ts"]⟩,
   ⟨ItemData.tsuite "FooBar", [ItemData.tfile "src/a.spec.ts"]⟩]

/-- A selection containing only the Suite `"Foo"` (its sibling
`"FooBar"` exists in the tree but is not selected). -/
def itemsFooOnly : List TItem :=
  [⟨ItemData.tsuite "Foo", [ItemData.tfile "src/a.spec.ts"]⟩]

/-- Three test cases all belonging to the same file. -/
def itemsSameFile : List TItem :=
  [⟨ItemData.tcase "Comp does x", [ItemData.tsuite "Comp", ItemData.tfile "src/app/a.spec.ts"]⟩,
   ⟨ItemData.tcase "Comp does y", [ItemData.tsuite "Comp", ItemData.tfile "src/app/a.spec.ts"]⟩,
   ⟨ItemData.tcase "Comp does z", [ItemData.tsuite "Comp", ItemData.tfile "src/app/a.spec.ts"]⟩]

/-! ## Continuous Run Scheduler
(source: the continuous listener of `createRunHandler`, extension entry
point lines 172-212)

A run-request include entry is a `vscode.TestItem`, of which the
listener only consults `uri` (possibly `undefined`).  The scheduler
state is the `queuedFiles` set (uri strings, insertion-ordered), whether
an armed debounce timer exists, and the run requests issued so far (each
recorded by its computed include list). -/

structure SItem where
  uri : Option String
deriving DecidableEq, Repr

structure SchedState where
  queuedFiles : List String
  timerArmed : Bool
  runs : List (List SItem)
deriving DecidableEq, Repr

def schedInit : SchedState := ⟨[], false, []⟩

/-- `req.include.some(i => i.uri?.toString() === uri.toString())`. -/
def includeHasUri (incl : List SItem) (uri : String) : Bool :=
  incl.any (fun i => i.uri == some uri)

/-- The `fileChangedEmitter` listener body.  Note the source runs
`clearTimeout(debounced)` *before* the include check, so the timer is
disarmed even for a non-included uri; only afterwards, for a qualifying
uri, is the pending set updated and a fresh timer armed. -/
def onFileChange (includeSet : Option (List SItem)) (st : SchedState)
    (uri : String) (removed : Bool) : SchedState :=
  let st1 : SchedState := { st with timerArmed := false }
  match includeSet with
  | some incl =>
    if includeHasUri incl uri then
      { st1 with
        queuedFiles :=
          if removed then st1.queuedFiles.erase uri
          else insertPath st1.queuedFiles uri,
        timerArmed := true }
    else st1
  | none =>
    { st1 with
      queuedFiles :=
        if removed then st1.queuedFiles.erase uri
        else insertPath st1.queuedFiles uri,
      timerArmed := true }

/-- The debounce timer callback (fires only if a timer is still armed):
compute the new include list, clear `queuedFiles`, issue one run.
`lookup` stands for `getOrCreateFile`, which may fail to produce a test
item for a uri. -/
def onTimerFire (includeSet : Option (List SItem)) (lookup : String → Option SItem)
    (st : SchedState) : SchedState :=
  if st.timerArmed then
    let inc : List SItem :=
      match includeSet with
      | some incl =>
        incl.filter (fun t =>
          match t.uri with
          | some u => st.queuedFiles.contains u
          | none => false)
      | none => st.queuedFiles.filterMap lookup
    { queuedFiles := [], timerArmed := false, runs := st.runs ++ [inc] }
  else st

inductive SEvent where
  | change (uri : String) (removed : Bool)
  | fire
deriving DecidableEq, Repr

def schedStep (includeSet : Option (List SItem)) (lookup : String → Option SItem)
    (st : SchedState) : SEvent → SchedState
  | SEvent.change uri removed => onFileChange includeSet st uri removed
  | SEvent.fire => onTimerFire includeSet lookup st

def schedRun (includeSet : Option (List SItem)) (lookup : String → Option SItem)
    (events : List SEvent) : SchedState :=
  events.foldl (schedStep includeSet lookup) schedInit

/-! ## Debug Sync Gate (source: `createWaitServer`, lines 178-202)

A socket accepted while `ready` is `false` is held open, its close
callback subscribed to the `onReady` emitter (subscriptions are never
disposed); `ready()` sets the flag and fires the emitter, ending every
subscribed socket; a socket accepted while `ready` is `true` is ended
immediately.  `waiting` is the emitter's subscriber list, `ends` the
sequence of `socket.end()` calls. -/

structure GateState where
  ready : Bool
  waiting : List Nat
  ends : List Nat
deriving DecidableEq, Repr

def gateInit : GateState := ⟨false, [], []⟩

inductive GEvent where
  | connect (id : Nat)
  | readySignal
deriving DecidableEq, Repr

def gateStep (g : GateState) : GEvent → GateState
  | GEvent.connect id =>
    if g.ready then { g with ends := g.ends ++ [id] }
    else { g with waiting := g.waiting ++ [id] }
  | GEvent.readySignal => { g with ready := true, ends := g.ends ++ g.waiting }

def runGate (events : List GEvent) : GateState := events.foldl gateStep gateInit

def isReadyEvent : GEvent → Bool
  | GEvent.readySignal => true
  | GEvent.connect _ => false

/-- The number of `NotReady → Ready` transitions along an event trace. -/
def countTrans (g : GateState) : List GEvent → Nat
  | [] => 0
  | e :: rest =>
    (if g.ready = false ∧ (gateStep g e).ready = true then 1 else 0)
      + countTrans (gateStep g e) rest

/-! ## `debug()`: attach configuration lookup and session tracking
(source: lines 51-70 and 101-122) -/

def attachConfigName : String := "Attach to VS Code"

structure LaunchConfig where
  name : String
deriving DecidableEq, Repr

inductive DebugEffect where
  | openWaitServer
  | spawnProcess
  | registerTrackerFactory
  | registerExitHook
  | registerSessionListener
deriving DecidableEq, Repr

/-- The effect sequence of `debug()` through its registration phase,
paired with the raised error if any.  The attach-configuration lookup
(`getConfiguration("launch").get("configurations").find(...)`) runs
first; on failure `debug` throws before `createWaitServer` and before
`spawn`, so no effect is performed. -/
def debugFlow (configs : List LaunchConfig) : List DebugEffect × Option String :=
  match configs.find? (fun c => c.name == attachConfigName) with
  | none => ([], some ("Could not find launch config " ++ attachConfigName))
  | some _ =>
    ([DebugEffect.openWaitServer, DebugEffect.spawnProcess,
      DebugEffect.registerTrackerFactory, DebugEffect.registerExitHook,
      DebugEffect.registerSessionListener], none)

/-- State of one `debug()` invocation's exit handler and
`onDidStartDebugSession` listener: whether the subprocess exited,
the recorded root session, whether the session-start listener is still
registered (it is disposed inside the exit handler), and the arguments
of the `vscode.debug.stopDebugging` calls made (`none` = called with
`undefined`). -/
structure DebugSessionState where
  exited : Bool
  rootSession : Option Nat
  listenerActive : Bool
  stops : List (Option Nat)
deriving DecidableEq, Repr

def dbgInit : DebugSessionState := ⟨false, none, true, []⟩

inductive DbgEvent where
  | sessionStart (name : String) (id : Nat)
  | procExit
deriving DecidableEq, Repr

/-- `cp.once('exit', ...)` sets `exited`, disposes the listener, and
stops the root session if one was recorded; the session-start listener
(when still registered) records the first session named
`ATTACH_CONFIG_NAME` as root, or — in its `exited` branch — calls
`stopDebugging(rootSession)` with `rootSession` still `undefined`. -/
def dbgStep (st : DebugSessionState) : DbgEvent → DebugSessionState
  | DbgEvent.procExit =>
    if st.exited then st
    else
      let st2 : DebugSessionState := { st with exited := true, listenerActive := false }
      match st.rootSession with
      | some r => { st2 with stops := st2.stops ++ [some r] }
      | none => st2
  | DbgEvent.sessionStart name id =>
    if st.listenerActive then
      if name == attachConfigName && st.rootSession.isNone then
        if st.exited then { st with stops := st.stops ++ [st.rootSession] }
        else { st with rootSession := some id }
      else st
    else st

def dbgRunFrom (st : DebugSessionState) (events : List DbgEvent) : DebugSessionState :=
  events.foldl dbgStep st

def dbgRun (events : List DbgEvent) : DebugSessionState := dbgRunFrom dbgInit events

/-- The session recorded as root by the source: the first matching
session started strictly before the subprocess exit. -/
def firstRoot : List DbgEvent → Option Nat
  | [] => none
  | DbgEvent.procExit :: _ => none
  | DbgEvent.sessionStart n id :: rest =>
    if n = attachConfigName then some id else firstRoot rest

/-! ## `getReporters` text scan (source: lines 224-252)

JavaScript string primitives, modelled at the character-list level. -/

/-- `String.prototype.indexOf`: index of the first occurrence of `sub`
at or after the running index `i`. -/
def findSub (sub : List Char) : List Char → Nat → Option Nat
  | [], i => if sub = [] then some i else none
  | c :: rest, i =>
    if isPre sub (c :: rest) = true then some i else findSub sub rest (i + 1)

/-- `s.indexOf(sub, pos)` (result `-1` when absent). -/
def jsIndexOfFrom (s sub : String) (pos : Nat) : Int :=
  match findSub sub.data (s.data.drop pos) 0 with
  | some i => ((pos + i : Nat) : Int)
  | none => -1

/-- `String.prototype.slice(start, end)` with a possibly negative end. -/
def jsSliceData (l : List Char) (start : Nat) (endI : Int) : List Char :=
  let e : Nat :=
    if endI < 0 then ((l.length : Int) + endI).toNat else min endI.toNat l.length
  (l.take e).drop start

/-- `String.prototype.split(sep)` for a non-empty string separator,
written with a fuel argument so it computes by kernel reduction; the
fuel never runs out when it starts at `length + 1`, since every step
consumes at least one character. -/
def jsSplitOnFuel (sep : List Char) : Nat → List Char → List (List Char)
  | 0, l => [l]
  | _ + 1, [] => [[]]
  | fuel + 1, c :: rest =>
    if sep ≠ [] ∧ isPre sep (c :: rest) = true then
      [] :: jsSplitOnFuel sep fuel (List.drop (sep.length - 1) rest)
    else consHead c (jsSplitOnFuel sep fuel rest)

def jsSplitOn (sep l : List Char) : List (List Char) :=
  jsSplitOnFuel sep (l.length + 1) l

def quoteChar : Char := Char.ofNat 39

/-- `rep.replace("'", '')`: remove the first single quote only. -/
def removeFirstQuote : List Char → List Char
  | [] => []
  | c :: rest => if c = quoteChar then rest else c :: removeFirstQuote rest

/-- `String.prototype.trim` (whitespace from both ends). -/
def trimData (l : List Char) : List Char :=
  ((l.dropWhile Char.isWhitespace).reverse.dropWhile Char.isWhitespace).reverse

/-- `Array.prototype.join(',')`. -/
def joinComma : List (List Char) → List Char
  | [] => []
  | [x] => x
  | x :: rest => x ++ ',' :: joinComma rest

/-- The text scan of `getReporters` applied to the config file content
(the earlier file-lookup/read failures all return `""` and are not
modelled here).  A JavaScript exception surfaces as `Except.error`:
when the slice up to the first `]` contains no `[`,
`arrString.split('[')[1]` is `undefined`, and invoking `.split(', ')`
on it throws a `TypeError`. -/
def getReportersScan (content : String) : Except String String :=
  if content.data = [] then Except.ok ""
  else
    match findSub "reporters: ".data content.data 0 with
    | none => Except.ok ""
    | some startIndex =>
      let endIndex : Int := jsIndexOfFrom content "]" startIndex
      let arrString : List Char := jsSliceData content.data startIndex endIndex
      match (jsSplitOn "[".data arrString).get? 1 with
      | none =>
        Except.error "TypeError: Cannot read properties of undefined (reading split)"
      | some reportersString =>
        let parts := jsSplitOn ", ".data reportersString
        let cleaned := parts.map (fun rep => trimData (removeFirstQuote (removeFirstQuote rep)))
        Except.ok ("--reporters=" ++ String.mk (joinComma cleaned))

/-! ### Basic lemmas about the matching model -/

theorem isPre_iff (a b : List Char) : isPre a b = true ↔ ∃ t, b = a ++ t := by
  induction a generalizing b with
  | nil => simp [isPre]
  | cons c as ih =>
    cases b with
    | nil => simp [isPre]
    | cons d bs =>
      simp only [isPre, Bool.and_eq_true, beq_iff_eq, ih, List.cons_append]
      constructor
      · rintro ⟨rfl, t, rfl⟩; exact ⟨t, rfl⟩
      · rintro ⟨t, ht⟩
        injection ht with h1 h2
        exact ⟨h1.symm, t, h2⟩

theorem isPre_append (a t : List Char) : isPre a (a ++ t) = true :=
  (isPre_iff a (a ++ t)).mpr ⟨t, rfl⟩

/-- Matching a pure-literal atom list is exactly the prefix test. -/
theorem atomsMatch_lit (l s : List Char) :
    atomsMatch (l.map RAtom.ch) s = isPre l s := by
  induction l generalizing s with
  | nil => simp [atomsMatch, isPre]
  | cons c cs ih =>
    cases s with
    | nil => simp [atomsMatch, isPre]
    | cons d ds => simp [atomsMatch, isPre, ih]

/-- Matching literals followed by the `$` end anchor is exact equality. -/
theorem atomsMatch_lit_endA (l s : List Char) :
    atomsMatch (l.map RAtom.ch ++ [RAtom.endA]) s = true ↔ s = l := by
  induction l generalizing s with
  | nil =>
    cases s with
    | nil => simp [atomsMatch]
    | cons d ds => simp [atomsMatch]
  | cons c cs ih =>
    cases s with
    | nil => simp [atomsMatch]
    | cons d ds =>
      simp only [List.map_cons, List.cons_append, atomsMatch, Bool.and_eq_true,
        beq_iff_eq, List.append_eq, ih]
      constructor
      · rintro ⟨rfl, rfl⟩; rfl
      · intro h; injection h with h1 h2; exact ⟨h1.symm, h2⟩

/-- `parseAtoms` undoes `escList`: the escaped form of a name parses back
to the literal atom sequence, whatever follows it. -/
theorem parseAtoms_escList (l rest : List Char) :
    parseAtoms (escList l ++ rest) = l.map RAtom.ch ++ parseAtoms rest := by
  induction l with
  | nil => simp [escList]
  | cons c cs ih =>
    by_cases hc : isReSpecial c = true
    · simp [escList, hc, parseAtoms, parseEsc, ih]
    · have hb : c ≠ '\\' := by
        intro h; subst h; simp [isReSpecial, reSpecials] at hc
      have hd : c ≠ '$' := by
        intro h; subst h; simp [isReSpecial, reSpecials] at hc
      simp [escList, hc, parseAtoms, hb, hd, ih]

/-- The escaped form of a name is clean, whatever clean suffix follows. -/
theorem escClean_escList (l rest : List Char) (h : escClean rest = true) :
    escClean (escList l ++ rest) = true := by
  induction l with
  | nil => simpa [escList]
  | cons c cs ih =>
    by_cases hc : isReSpecial c = true
    · simp [escList, hc, escClean, escCleanEsc, ih]
    · have hb : c ≠ '\\' := by
        intro hh; subst hh; simp [isReSpecial, reSpecials] at hc
      have hp : c ≠ '|' := by
        intro hh; subst hh; simp [isReSpecial, reSpecials] at hc
      simp [escList, hc, escClean, hb, hp, ih]

theorem consHead_ne_nil (c : Char) (l : List (List Char)) : consHead c l ≠ [] := by
  cases l <;> simp [consHead]

theorem splitAlt_ne_nil (l : List Char) : splitAlt l ≠ [] := by
  match l with
  | [] => simp [splitAlt]
  | c :: rest =>
    by_cases h1 : c = '|'
    · simp [splitAlt, h1]
    · by_cases h2 : c = '\\'
      · match rest with
        | [] => simp [splitAlt, h1, h2, splitAltEsc]
        | c2 :: rest2 =>
          simp only [splitAlt, h1, if_false, h2, if_true, splitAltEsc]
          exact consHead_ne_nil _ _
      · simp only [splitAlt, h1, if_false, h2]
        exact consHead_ne_nil _ _

theorem strData_append (a b : String) : (a ++ b).data = a.data ++ b.data := rfl

/-- Splitting a clean branch yields the branch alone; splitting it in
front of a `|` separator peels it off the front. -/
theorem splitAlt_clean_aux :
    ∀ n : Nat, ∀ b : List Char, b.length ≤ n → escClean b = true →
      splitAlt b = [b] ∧ ∀ rest, splitAlt (b ++ '|' :: rest) = b :: splitAlt rest := by
  intro n
  induction n with
  | zero =>
    intro b hlen _
    have hb : b = [] := List.eq_nil_of_length_eq_zero (Nat.le_zero.mp hlen)
    subst hb
    exact ⟨by simp [splitAlt], fun rest => by simp [splitAlt]⟩
  | succ m ih =>
    intro b hlen hcl
    cases b with
    | nil => exact ⟨by simp [splitAlt], fun rest => by simp [splitAlt]⟩
    | cons c tl =>
      by_cases hbs : c = '\\'
      · subst hbs
        have htl : escCleanEsc tl = true := by
          simpa [escClean] using hcl
        cases tl with
        | nil => simp [escCleanEsc] at htl
        | cons c2 tl2 =>
          have hcl2 : escClean tl2 = true := by simpa [escCleanEsc] using htl
          have hlen2 : tl2.length ≤ m := by
            simp [List.length_cons] at hlen; omega
          obtain ⟨h1, h2⟩ := ih tl2 hlen2 hcl2
          constructor
          · simp [splitAlt, splitAltEsc, h1, consHead]
          · intro rest
            simp [splitAlt, splitAltEsc, h2 rest, consHead]
      · have hpipe : c ≠ '|' := by
          intro hh; subst hh
          simp [escClean, hbs] at hcl
        have hcl2 : escClean tl = true := by
          simpa [escClean, hbs, hpipe] using hcl
        have hlen2 : tl.length ≤ m := by
          simp [List.length_cons] at hlen; omega
        obtain ⟨h1, h2⟩ := ih tl hlen2 hcl2
        constructor
        · simp [splitAlt, hbs, hpipe, h1, consHead]
        · intro rest
          simp [splitAlt, hbs, hpipe, h2 rest, consHead]

theorem splitAlt_clean (b : List Char) (h : escClean b = true) : splitAlt b = [b] :=
  (splitAlt_clean_aux b.length b le_rfl h).1

theorem splitAlt_clean_append (b : List Char) (h : escClean b = true) (rest : List Char) :
    splitAlt (b ++ '|' :: rest) = b :: splitAlt rest :=
  (splitAlt_clean_aux b.length b le_rfl h).2 rest

/-- The branches of the joined alternation are exactly the branch list,
provided every branch is clean (as those built from `escapeRe` are). -/
theorem splitAlt_joinBar (g : List String) (hne : g ≠ [])
    (hcl : ∀ b ∈ g, escClean b.data = true) :
    splitAlt (joinBar g).data = g.map String.data := by
  induction g with
  | nil => exact absurd rfl hne
  | cons s g' ih =>
    cases g' with
    | nil =>
      simp only [joinBar, List.map]
      exact splitAlt_clean s.data (hcl s (by simp))
    | cons s2 g'' =>
      have hdata : (joinBar (s :: s2 :: g'')).data
          = s.data ++ '|' :: (joinBar (s2 :: g'')).data := by
        show ((s ++ "|") ++ joinBar (s2 :: g'')).data = _
        rw [strData_append, strData_append]
        simp
      rw [hdata, splitAlt_clean_append s.data (hcl s (by simp))]
      rw [ih (by simp) (fun b hb => hcl b (by simp [hb]))]
      simp

/-- `jsRegexTest` on the joined alternation checks each branch. -/
theorem jsRegexTest_joinBar (g : List String) (hne : g ≠ [])
    (hcl : ∀ b ∈ g, escClean b.data = true) (name : String) :
    jsRegexTest (joinBar g) name
      = g.any (fun b => atomsMatch (parseAtoms b.data) name.data) := by
  rw [jsRegexTest, splitAlt_joinBar g hne hcl]
  have hgen : ∀ l : List String,
      ((List.map String.data l).any fun br => atomsMatch (parseAtoms br) name.data)
        = l.any fun b => atomsMatch (parseAtoms b.data) name.data := by
    intro l
    induction l with
    | nil => rfl
    | cons a t ih => simp [List.any_cons, ih]
  exact hgen g

/-- The branches produced for a Case (`escapeRe fullName ++ "$"`) and a
Suite (`escapeRe fullName ++ " "`) are clean. -/
theorem escClean_caseBranch (n : String) : escClean (escapeRe n ++ "$").data = true := by
  rw [strData_append]
  exact escClean_escList n.data _ (by decide)

theorem escClean_suiteBranch (n : String) : escClean (escapeRe n ++ " ").data = true := by
  rw [strData_append]
  exact escClean_escList n.data _ (by decide)

/-- A Case branch matches exactly the literal full name. -/
theorem caseBranch_matches (n name : String) :
    atomsMatch (parseAtoms (escapeRe n ++ "$").data) name.data = true ↔ name.data = n.data := by
  rw [strData_append]
  show atomsMatch (parseAtoms (escList n.data ++ ['$'])) name.data = true ↔ _
  rw [parseAtoms_escList]
  have h1 : parseAtoms ['$'] = [RAtom.endA] := by decide
  rw [h1]
  exact atomsMatch_lit_endA n.data name.data

/-- A Suite branch matches exactly the names having
`fullName ++ " "` as a prefix. -/
theorem suiteBranch_matches (n name : String) :
    atomsMatch (parseAtoms (escapeRe n ++ " ").data) name.data
      = isPre (n.data ++ [' ']) name.data := by
  rw [strData_append]
  show atomsMatch (parseAtoms (escList n.data ++ [' '])) name.data = _
  rw [parseAtoms_escList]
  have h1 : parseAtoms [' '] = [RAtom.ch ' '] := by decide
  rw [h1]
  have h2 : n.data.map RAtom.ch ++ [RAtom.ch ' '] = (n.data ++ [' ']).map RAtom.ch := by
    simp
  rw [h2, atomsMatch_lit]

/-- **C7** For every `Case` or `Suite` whose `fullName` contains regex
metacharacters, the name-match expression pushed by `prepareArgs`
(`escapeRe fullName` plus the `$` end anchor for a Case, or the trailing
space for a Suite) matches exactly the literal name: the Case expression
matches only the name itself, and the Suite expression matches only the
names extending `fullName ++ " "` — no unrelated string satisfying the
unescaped pattern is matched. -/
theorem escaping_matches_literal_name (n : String) (_hmeta : hasRegexMeta n = true) :
    (∀ name : String, jsRegexTest (escapeRe n ++ "$") name = true ↔ name.data = n.data) ∧
    (∀ name : String, jsRegexTest (escapeRe n ++ " ") name = true
        ↔ isPre (n.data ++ [' ']) name.data = true) := by
  constructor
  · intro name
    have hb := jsRegexTest_joinBar [escapeRe n ++ "$"] (by simp)
      (by intro b hb; simp at hb; subst hb; exact escClean_caseBranch n) name
    have hj : joinBar [escapeRe n ++ "$"] = escapeRe n ++ "$" := rfl
    rw [hj] at hb
    rw [hb]
    simp only [List.any_cons, List.any_nil, Bool.or_false]
    exact caseBranch_matches n name
  · intro name
    have hb := jsRegexTest_joinBar [escapeRe n ++ " "] (by simp)
      (by intro b hb; simp at hb; subst hb; exact escClean_suiteBranch n) name
    have hj : joinBar [escapeRe n ++ " "] = escapeRe n ++ " " := rfl
    rw [hj] at hb
    rw [hb]
    simp only [List.any_cons, List.any_nil, Bool.or_false]
    rw [suiteBranch_matches n name]

/-- Witness for C7 at the spec's example name `"A.B*C"`: the escaped Case
expression matches the literal name and rejects `"AxBC"`, a string that
satisfies the unescaped pattern `/^A.B*C$/`. -/
theorem escaping_matches_literal_name_witness :
    hasRegexMeta "A.B*C" = true
      ∧ jsRegexTest (escapeRe "A.B*C" ++ "$") "A.B*C" = true
      ∧ jsRegexTest (escapeRe "A.B*C" ++ "$") "AxBC" = false := by
  have h := escaping_matches_literal_name "A.B*C" (by decide)
  refine ⟨by decide, (h.1 "A.B*C").mpr rfl, ?_⟩
  cases htest : jsRegexTest (escapeRe "A.B*C" ++ "$") "AxBC" with
  | false => rfl
  | true => exact absurd ((h.1 "AxBC").mp htest) (by decide)

/-! ### Structure of the argument vector -/

theorem prepareArgs_some (cfg : RunnerCfg) (baseArgs : List String) (items : List TItem) :
    prepareArgs cfg baseArgs (some items)
      = baseArgList cfg baseArgs
        ++ (if (collectFilter items).1 = [] then []
            else ["--grep", grepToken (collectFilter items).1])
        ++ (collectFilter items).2.flatMap (fun p => ["--run", p]) := by
  unfold prepareArgs
  by_cases h1 : (collectFilter items).1 = [] <;>
    by_cases h2 : (collectFilter items).2 = [] <;>
      simp [h1, h2]

theorem collectFilter_fst_aux (items : List TItem) :
    ∀ acc : List String × List String,
      (items.foldl collectStep acc).1
        = acc.1 ++ items.filterMap (fun it => grepExprOf it.data) := by
  induction items with
  | nil => intro acc; simp
  | cons it rest ih =>
    intro acc
    rw [List.foldl_cons, ih]
    cases hd : it.data <;>
      simp [collectStep, hd, grepExprOf, List.filterMap_cons, List.append_assoc]

/-- `grepRe` is exactly the per-item expressions in selection order. -/
theorem collectFilter_fst (items : List TItem) :
    (collectFilter items).1 = items.filterMap (fun it => grepExprOf it.data) := by
  simpa [collectFilter] using collectFilter_fst_aux items ([], [])

theorem mem_insertPath {q p : String} {l : List String} :
    q ∈ insertPath l p ↔ q ∈ l ∨ q = p := by
  unfold insertPath
  by_cases h : p ∈ l
  · simp only [h, if_true]
    constructor
    · exact Or.inl
    · rintro (hq | rfl)
      · exact hq
      · exact h
  · simp [h]

theorem nodup_insertPath {l : List String} (h : l.Nodup) (p : String) :
    (insertPath l p).Nodup := by
  unfold insertPath
  by_cases hp : p ∈ l
  · simpa [hp]
  · rw [if_neg hp]
    exact List.Nodup.append h (List.nodup_singleton p)
      (by intro a ha hb; simp at hb; subst hb; exact hp ha)

theorem nodup_foldl_insertPath (ps : List String) :
    ∀ l : List String, l.Nodup → (ps.foldl insertPath l).Nodup := by
  induction ps with
  | nil => intro l h; simpa
  | cons p ps ih => intro l h; exact ih _ (nodup_insertPath h p)

theorem collectFilter_snd_nodup_aux (items : List TItem) :
    ∀ acc : List String × List String, acc.2.Nodup →
      ((items.foldl collectStep acc).2).Nodup := by
  induction items with
  | nil => intro acc h; simpa
  | cons it rest ih =>
    intro acc h
    rw [List.foldl_cons]
    apply ih
    cases hd : it.data with
    | tcase n => simpa [collectStep, hd] using nodup_foldl_insertPath _ _ h
    | tsuite n => simpa [collectStep, hd] using nodup_foldl_insertPath _ _ h
    | tfile p => simpa [collectStep, hd] using nodup_insertPath h p

/-- `runPaths` never contains duplicates (it is a `Set`). -/
theorem collectFilter_snd_nodup (items : List TItem) :
    ((collectFilter items).2).Nodup :=
  collectFilter_snd_nodup_aux items ([], []) (by simp)

theorem mem_foldl_insertPath {q : String} (ps : List String) :
    ∀ l : List String, q ∈ ps.foldl insertPath l → q ∈ l ∨ q ∈ ps := by
  induction ps with
  | nil => intro l h; exact Or.inl h
  | cons p ps ih =>
    intro l h
    rcases ih _ h with h2 | h2
    · rcases mem_insertPath.mp h2 with h3 | h3
      · exact Or.inl h3
      · exact Or.inr (by simp [h3])
    · exact Or.inr (by simp [h2])

theorem collectFilter_snd_mem_aux {q : String} (items : List TItem) :
    ∀ acc : List String × List String, q ∈ (items.foldl collectStep acc).2 →
      q ∈ acc.2 ∨ ∃ it ∈ items, q ∈ itemRunPaths it := by
  induction items with
  | nil => intro acc h; exact Or.inl h
  | cons it rest ih =>
    intro acc h
    rw [List.foldl_cons] at h
    rcases ih _ h with h2 | h2
    · cases hd : it.data with
      | tcase n =>
        rw [collectStep, hd] at h2
        rcases mem_foldl_insertPath _ _ h2 with h3 | h3
        · exact Or.inl h3
        · exact Or.inr ⟨it, by simp, by simp [itemRunPaths, hd, h3]⟩
      | tsuite n =>
        rw [collectStep, hd] at h2
        rcases mem_foldl_insertPath _ _ h2 with h3 | h3
        · exact Or.inl h3
        · exact Or.inr ⟨it, by simp, by simp [itemRunPaths, hd, h3]⟩
      | tfile p =>
        rw [collectStep, hd] at h2
        rcases mem_insertPath.mp h2 with h3 | h3
        · exact Or.inl h3
        · exact Or.inr ⟨it, by simp, by simp [itemRunPaths, hd, h3]⟩
    · obtain ⟨it2, hit2, hq⟩ := h2
      exact Or.inr ⟨it2, by simp [hit2], hq⟩

/-- Every collected run path comes from some selected item. -/
theorem collectFilter_snd_mem {q : String} (items : List TItem)
    (h : q ∈ (collectFilter items).2) : ∃ it ∈ items, q ∈ itemRunPaths it := by
  rcases collectFilter_snd_mem_aux items ([], []) h with h2 | h2
  · cases h2
  · exact h2

theorem grepToken_ne_empty (g : List String) : grepToken g ≠ "" := by
  intro h
  have h2 := congrArg String.data h
  rw [grepToken, strData_append, strData_append] at h2
  simp at h2

/-! ### Prefix bookkeeping for the anchoring property -/

/-- Splitting a list at an occurrence of `c` that is preceded by no other
occurrence of `c` is unique. -/
theorem uniqueSplit (c : Char) :
    ∀ (a1 a2 t1 t2 : List Char), c ∉ a1 → c ∉ a2 →
      a1 ++ c :: t1 = a2 ++ c :: t2 → a1 = a2 ∧ t1 = t2 := by
  intro a1
  induction a1 with
  | nil =>
    intro a2 t1 t2 _ h2 heq
    cases a2 with
    | nil => simpa using heq
    | cons d a2' =>
      simp only [List.nil_append, List.cons_append] at heq
      injection heq with hc _
      exact absurd (hc ▸ List.mem_cons_self d a2') h2
  | cons e a1' ih =>
    intro a2 t1 t2 h1 h2 heq
    cases a2 with
    | nil =>
      simp only [List.cons_append, List.nil_append] at heq
      injection heq with hc _
      exact absurd (hc ▸ List.mem_cons_self e a1') h1
    | cons d a2' =>
      simp only [List.cons_append] at heq
      injection heq with hc hrest
      have h1' : c ∉ a1' := fun h => h1 (List.mem_cons_of_mem e h)
      have h2' : c ∉ a2' := fun h => h2 (List.mem_cons_of_mem d h)
      obtain ⟨ha, ht⟩ := ih a2' t1 t2 h1' h2' hrest
      exact ⟨by rw [hc, ha], ht⟩

/-- Any list containing `c` splits at the first occurrence of `c`. -/
theorem firstSplit (c : Char) :
    ∀ l : List Char, c ∈ l → ∃ p q, l = p ++ c :: q ∧ c ∉ p := by
  intro l
  induction l with
  | nil => intro h; cases h
  | cons d l' ih =>
    intro h
    by_cases hd : d = c
    · exact ⟨[], l', by rw [hd]; rfl, by simp⟩
    · have h' : c ∈ l' := by
        rcases List.mem_cons.mp h with h2 | h2
        · exact absurd h2.symm hd
        · exact h2
      obtain ⟨p, q, hl, hp⟩ := ih h'
      exact ⟨d :: p, q, by rw [hl]; rfl, by
        intro hc
        rcases List.mem_cons.mp hc with h2 | h2
        · exact hd h2.symm
        · exact hp h2⟩

/-- Core of prefix non-interference: a Suite expression whose full name
is neither `"FooBar"` nor under `"FooBar "` cannot match a test name
that is under `"FooBar "`. -/
theorem suite_no_foobar_match (n name : String)
    (hn1 : n.data ≠ "FooBar".data) (hn2 : isPre "FooBar ".data n.data = false)
    (hpre : isPre "FooBar ".data name.data = true) :
    isPre (n.data ++ [' ']) name.data = false := by
  by_contra hcon
  rw [Bool.not_eq_false] at hcon
  obtain ⟨u, hu⟩ := (isPre_iff _ _).mp hcon
  obtain ⟨v, hv⟩ := (isPre_iff _ _).mp hpre
  have hu' : name.data = n.data ++ ' ' :: u := by
    rw [hu, List.append_assoc]; rfl
  have hfb : "FooBar ".data = "FooBar".data ++ [' '] := by decide
  have hv' : name.data = "FooBar".data ++ ' ' :: v := by
    rw [hv, hfb, List.append_assoc]; rfl
  by_cases hsp : ' ' ∈ n.data
  · obtain ⟨p, q, hnd, hnp⟩ := firstSplit ' ' n.data hsp
    have hname2 : name.data = p ++ ' ' :: (q ++ ' ' :: u) := by
      rw [hu', hnd, List.append_assoc]; rfl
    have h2 := uniqueSplit ' ' p "FooBar".data _ _ hnp (by decide)
      (hname2.symm.trans hv')
    have hbad : isPre "FooBar ".data n.data = true := by
      rw [hnd, h2.1, hfb]
      exact (isPre_iff _ _).mpr ⟨q, by rw [List.append_assoc]; rfl⟩
    rw [hbad] at hn2
    cases hn2
  · have h2 := uniqueSplit ' ' n.data "FooBar".data u v hsp (by decide)
      (hu'.symm.trans hv')
    exact hn1 h2.1

/-! ### Claim C8: idempotent run paths -/

theorem same_file_snd_aux (p : String) :
    ∀ items : List TItem,
      (∀ it ∈ items, isCaseItem it.data = true ∧ ancestorFilePaths it = [p]) →
      ∀ g : List String, (items.foldl collectStep (g, [p])).2 = [p] := by
  intro items
  induction items with
  | nil => intro _ g; rfl
  | cons it rest ih =>
    intro hall g
    obtain ⟨hc, ha⟩ := hall it (by simp)
    cases hd : it.data with
    | tcase n =>
      have hstep : collectStep (g, [p]) it = (g ++ [escapeRe n ++ "$"], [p]) := by
        simp [collectStep, hd, ha, insertPath]
      rw [List.foldl_cons, hstep]
      exact ih (fun it2 h2 => hall it2 (by simp [h2])) _
    | tsuite n => rw [hd] at hc; simp [isCaseItem] at hc
    | tfile q => rw [hd] at hc; simp [isCaseItem] at hc

/-- **C8** For every selection of test cases all belonging to one file
with run path `p`, the collected `runPaths` set is exactly `[p]` and the
argument vector ends with a single `--run p` pair after the `--grep`
flag; moreover `runPaths` never contains duplicates for any selection. -/
theorem same_file_single_run_pair (cfg : RunnerCfg) (baseArgs : List String)
    (items : List TItem) (p : String) (hne : items ≠ [])
    (hall : ∀ it ∈ items, isCaseItem it.data = true ∧ ancestorFilePaths it = [p]) :
    (collectFilter items).2 = [p]
    ∧ prepareArgs cfg baseArgs (some items)
        = baseArgList cfg baseArgs
          ++ ["--grep", grepToken (collectFilter items).1] ++ ["--run", p]
    ∧ ∀ items2 : List TItem, ((collectFilter items2).2).Nodup := by
  have hsnd : (collectFilter items).2 = [p] := by
    cases items with
    | nil => exact absurd rfl hne
    | cons it0 rest =>
      obtain ⟨hc0, ha0⟩ := hall it0 (by simp)
      cases hd0 : it0.data with
      | tcase n =>
        have hstep : collectStep ([], []) it0 = ([escapeRe n ++ "$"], [p]) := by
          simp [collectStep, hd0, ha0, insertPath]
        show (List.foldl collectStep (collectStep ([], []) it0) rest).2 = [p]
        rw [hstep]
        exact same_file_snd_aux p rest (fun it2 h2 => hall it2 (by simp [h2])) _
      | tsuite n => rw [hd0] at hc0; simp [isCaseItem] at hc0
      | tfile q => rw [hd0] at hc0; simp [isCaseItem] at hc0
  have hfst : (collectFilter items).1 ≠ [] := by
    cases items with
    | nil => exact absurd rfl hne
    | cons it0 rest =>
      obtain ⟨hc0, _⟩ := hall it0 (by simp)
      rw [collectFilter_fst]
      cases hd0 : it0.data with
      | tcase n => simp [List.filterMap_cons, hd0, grepExprOf]
      | tsuite n => rw [hd0] at hc0; simp [isCaseItem] at hc0
      | tfile q => rw [hd0] at hc0; simp [isCaseItem] at hc0
  refine ⟨hsnd, ?_, collectFilter_snd_nodup⟩
  rw [prepareArgs_some, if_neg hfst, hsnd]
  simp

/-- Witness for C8: three cases of one file yield exactly one
`--run src/app/a.spec.ts` pair. -/
theorem same_file_single_run_pair_witness :
    (collectFilter itemsSameFile).2 = ["src/app/a.spec.ts"]
    ∧ prepareArgs cfg0 [] (some itemsSameFile)
        = baseArgList cfg0 []
          ++ ["--grep", grepToken (collectFilter itemsSameFile).1]
          ++ ["--run", "src/app/a.spec.ts"]
    ∧ ∀ items2 : List TItem, ((collectFilter items2).2).Nodup :=
  same_file_single_run_pair cfg0 [] itemsSameFile "src/app/a.spec.ts"
    (by decide) (by decide)

/-! ### Claim C2: the ArgumentVector invariant -/

/-- **C2, counterexample** A selection spanning two distinct files makes
`prepareArgs` emit the `--run` flag twice, refuting "filter flags
(`--grep`, `--run`) appear at most once each". -/
theorem run_flag_twice_counterexample :
    (prepareArgs cfg0 [] (some itemsTwoFiles)).count "--run" = 2
    ∧ ¬((prepareArgs cfg0 [] (some itemsTwoFiles)).count "--run" ≤ 1) := by
  constructor
  · decide
  · decide

/-- **C2, amended** Every argument vector produced by `prepareArgs` has
no empty-string elements (given the run paths are non-empty), `--grep`
appears at most once (a single optional pair), and `--run` appears
exactly once per distinct collected run path, the paths being
deduplicated. -/
theorem argvector_invariant_amended (cfg : RunnerCfg) (baseArgs : List String)
    (items : List TItem)
    (hp : ∀ it ∈ items, ∀ q ∈ itemRunPaths it, q ≠ "") :
    prepareArgs cfg baseArgs (some items)
      = baseArgList cfg baseArgs
        ++ (if (collectFilter items).1 = [] then []
            else ["--grep", grepToken (collectFilter items).1])
        ++ (collectFilter items).2.flatMap (fun p => ["--run", p])
    ∧ ((collectFilter items).2).Nodup
    ∧ "" ∉ prepareArgs cfg baseArgs (some items) := by
  refine ⟨prepareArgs_some cfg baseArgs items, collectFilter_snd_nodup items, ?_⟩
  rw [prepareArgs_some]
  intro hmem
  rcases List.mem_append.mp hmem with hmem | hmem
  · rcases List.mem_append.mp hmem with hmem | hmem
    · have h2 := (List.mem_filter.mp hmem).2
      simp at h2
    · by_cases hg : (collectFilter items).1 = []
      · rw [if_pos hg] at hmem
        cases hmem
      · rw [if_neg hg] at hmem
        rcases List.mem_cons.mp hmem with h | h
        · exact absurd h (by decide)
        · rcases List.mem_cons.mp h with h2 | h2
          · exact grepToken_ne_empty _ h2.symm
          · cases h2
  · obtain ⟨p, hpmem, hin⟩ := List.mem_flatMap.mp hmem
    rcases List.mem_cons.mp hin with h | h
    · exact absurd h (by decide)
    · rcases List.mem_cons.mp h with h2 | h2
      · obtain ⟨it, hit, hq⟩ := collectFilter_snd_mem items hpmem
        exact (hp it hit p hq) h2.symm
      · cases h2

/-- Witness for the amended C2 at a selection spanning two files. -/
theorem argvector_invariant_amended_witness :
    prepareArgs cfg0 [] (some itemsTwoFiles)
      = baseArgList cfg0 []
        ++ (if (collectFilter itemsTwoFiles).1 = [] then []
            else ["--grep", grepToken (collectFilter itemsTwoFiles).1])
        ++ (collectFilter itemsTwoFiles).2.flatMap (fun p => ["--run", p])
    ∧ ((collectFilter itemsTwoFiles).2).Nodup
    ∧ "" ∉ prepareArgs cfg0 [] (some itemsTwoFiles) :=
  argvector_invariant_amended cfg0 [] itemsTwoFiles (by decide)

/-! ### Claim C1: prefix non-interference of the grep alternation -/

/-- **C1, counterexample** A selection containing the Suite `"Foo"`
*and* its sibling Suite `"FooBar"` is a selection containing a Suite
named `"Foo"` while a sibling suite `"FooBar"` exists, yet its grep
alternation `/^(Foo |FooBar )/` does match the test full name
`"FooBar does x"`, which begins with `"FooBar "`. -/
theorem foo_foobar_cross_match_counterexample :
    prepareArgs cfg0 [] (some itemsFooBoth)
      = ["npm", "test", "--", "--no-watch", "--browsers=ChromeHeadless",
         "--grep", "/^(Foo |FooBar )/", "--run", "src/a.spec.ts"]
    ∧ jsRegexTest (joinBar (collectFilter itemsFooBoth).1) "FooBar does x" = true
    ∧ isPre "FooBar ".data "FooBar does x".data = true := by
  refine ⟨by decide, by decide, by decide⟩

/-- **C1, amended** For every selection containing the Suite `"Foo"` in
which no selected Case or Suite is `"FooBar"` itself or reaches under
`"FooBar "`, the grep alternation built by `prepareArgs` matches every
test full name beginning with `"Foo "` and matches no test full name
beginning with `"FooBar "`. -/
theorem anchoring_amended (cfg : RunnerCfg) (baseArgs : List String)
    (items : List TItem)
    (hFoo : ∃ it ∈ items, it.data = ItemData.tsuite "Foo")
    (hNoFB : ∀ it ∈ items, noFooBarData it.data = true) :
    (collectFilter items).1 ≠ []
    ∧ prepareArgs cfg baseArgs (some items)
        = baseArgList cfg baseArgs
          ++ ["--grep", grepToken (collectFilter items).1]
          ++ (collectFilter items).2.flatMap (fun p => ["--run", p])
    ∧ (∀ name : String, isPre "Foo ".data name.data = true →
        jsRegexTest (joinBar (collectFilter items).1) name = true)
    ∧ (∀ name : String, isPre "FooBar ".data name.data = true →
        jsRegexTest (joinBar (collectFilter items).1) name = false) := by
  obtain ⟨itF, hitF, hdF⟩ := hFoo
  have hg := collectFilter_fst items
  have hmem : (escapeRe "Foo" ++ " ") ∈ (collectFilter items).1 := by
    rw [hg]
    exact List.mem_filterMap.mpr ⟨itF, hitF, by rw [hdF]; rfl⟩
  have hne : (collectFilter items).1 ≠ [] := by
    intro h; rw [h] at hmem; cases hmem
  have hcl : ∀ b ∈ (collectFilter items).1, escClean b.data = true := by
    intro b hb
    rw [hg] at hb
    obtain ⟨it, _, hgrep⟩ := List.mem_filterMap.mp hb
    cases hd : it.data with
    | tcase n =>
      rw [hd] at hgrep
      simp only [grepExprOf, Option.some.injEq] at hgrep
      rw [← hgrep]
      exact escClean_caseBranch n
    | tsuite n =>
      rw [hd] at hgrep
      simp only [grepExprOf, Option.some.injEq] at hgrep
      rw [← hgrep]
      exact escClean_suiteBranch n
    | tfile p => rw [hd] at hgrep; cases hgrep
  refine ⟨hne, by rw [prepareArgs_some, if_neg hne], ?_, ?_⟩
  · intro name hpre
    rw [jsRegexTest_joinBar _ hne hcl]
    apply List.any_eq_true.mpr
    refine ⟨escapeRe "Foo" ++ " ", hmem, ?_⟩
    rw [suiteBranch_matches]
    have hfe : ("Foo" : String).data ++ [' '] = "Foo ".data := by decide
    rw [hfe]
    exact hpre
  · intro name hpre
    rw [jsRegexTest_joinBar _ hne hcl]
    cases hany : (collectFilter items).1.any
        (fun b => atomsMatch (parseAtoms b.data) name.data) with
    | false => rfl
    | true =>
      exfalso
      obtain ⟨b, hb, hmatch⟩ := List.any_eq_true.mp hany
      rw [hg] at hb
      obtain ⟨it, hit, hgrep⟩ := List.mem_filterMap.mp hb
      have hnofb := hNoFB it hit
      cases hd : it.data with
      | tcase n =>
        rw [hd] at hgrep
        simp only [grepExprOf, Option.some.injEq] at hgrep
        rw [← hgrep] at hmatch
        have hnn := (caseBranch_matches n name).mp hmatch
        rw [hd] at hnofb
        simp only [noFooBarData, Bool.not_eq_true'] at hnofb
        rw [hnn] at hpre
        rw [hpre] at hnofb
        cases hnofb
      | tsuite n =>
        rw [hd] at hgrep
        simp only [grepExprOf, Option.some.injEq] at hgrep
        rw [← hgrep] at hmatch
        rw [suiteBranch_matches] at hmatch
        rw [hd] at hnofb
        simp only [noFooBarData, Bool.and_eq_true, Bool.not_eq_true', beq_eq_false_iff_ne,
          ne_eq] at hnofb
        have hfalse := suite_no_foobar_match n name hnofb.1 hnofb.2 hpre
        rw [hmatch] at hfalse
        cases hfalse
      | tfile p => rw [hd] at hgrep; cases hgrep

/-- Witness for the amended C1: selecting only the Suite `"Foo"`
(`"FooBar"` exists as a sibling in the file but is not selected), the
alternation accepts `"Foo does x"` and rejects `"FooBar does x"`. -/
theorem anchoring_amended_witness :
    jsRegexTest (joinBar (collectFilter itemsFooOnly).1) "Foo does x" = true
    ∧ jsRegexTest (joinBar (collectFilter itemsFooOnly).1) "FooBar does x" = false := by
  have h := anchoring_amended cfg0 [] itemsFooOnly (by decide) (by decide)
  exact ⟨h.2.2.1 "Foo does x" (by decide), h.2.2.2 "FooBar does x" (by decide)⟩

/-! ### Claim C3: debounce coalescing -/

/-- **C3** For a continuous run with include `{A, B}`, the qualifying
events `[add A, add B, remove A]` within one debounce window produce,
when the timer fires, exactly one run whose include scope is exactly
`{B}`, and the pending change set is cleared at firing. -/
theorem debounce_coalescing (A B : String) (lookup : String → Option SItem)
    (hAB : A ≠ B) :
    schedRun (some [⟨some A⟩, ⟨some B⟩]) lookup
        [SEvent.change A false, SEvent.change B false,
         SEvent.change A true, SEvent.fire]
      = ⟨[], false, [[⟨some B⟩]]⟩ := by
  have hBA : ¬(B = A) := fun h => hAB h.symm
  simp [schedRun, schedInit, schedStep, onFileChange, onTimerFire, includeHasUri,
    insertPath, hAB, hBA, List.erase_cons, List.contains_cons]

/-- Witness for C3 at concrete uris. -/
theorem debounce_coalescing_witness :
    schedRun (some [⟨some "file:///a.spec.ts"⟩, ⟨some "file:///b.spec.ts"⟩])
        (fun _ => none)
        [SEvent.change "file:///a.spec.ts" false,
         SEvent.change "file:///b.spec.ts" false,
         SEvent.change "file:///a.spec.ts" true, SEvent.fire]
      = ⟨[], false, [[⟨some "file:///b.spec.ts"⟩]]⟩ :=
  debounce_coalescing "file:///a.spec.ts" "file:///b.spec.ts" (fun _ => none)
    (by decide)

/-! ### Claim C4: non-qualifying notifications and the debounce timer -/

/-- **C4, failing evaluation** With explicit include `{a}`, the armed
debounce timer left by `change a` is cleared by the subsequent
notification for the non-included file `b` (the source runs
`clearTimeout(debounced)` before the include check and returns without
rescheduling): the pending set still holds `a`, the timer is no longer
armed, and no run is ever issued — the claim instead requires the timer
to be unchanged and one run to fire. -/
theorem nonqualifying_change_clears_timer :
    (schedRun (some [⟨some "file:///a.spec.ts"⟩]) (fun _ => none)
        [SEvent.change "file:///a.spec.ts" false,
         SEvent.change "file:///b.ts" false]).timerArmed = false
    ∧ (schedRun (some [⟨some "file:///a.spec.ts"⟩]) (fun _ => none)
        [SEvent.change "file:///a.spec.ts" false,
         SEvent.change "file:///b.ts" false]).queuedFiles = ["file:///a.spec.ts"]
    ∧ (schedRun (some [⟨some "file:///a.spec.ts"⟩]) (fun _ => none)
        [SEvent.change "file:///a.spec.ts" false,
         SEvent.change "file:///b.ts" false, SEvent.fire]).runs = [] := by
  refine ⟨by decide, by decide, by decide⟩

/-! ### Claim C5: the readiness gate -/

theorem gateStep_ready (g : GateState) (e : GEvent) :
    (gateStep g e).ready = (g.ready || isReadyEvent e) := by
  cases e with
  | connect id =>
    by_cases h : g.ready = true
    · simp [gateStep, h, isReadyEvent]
    · simp at h
      simp [gateStep, h, isReadyEvent]
  | readySignal => simp [gateStep, isReadyEvent]

theorem countTrans_of_ready (tr : List GEvent) :
    ∀ g : GateState, g.ready = true → countTrans g tr = 0 := by
  induction tr with
  | nil => intro g _; rfl
  | cons e rest ih =>
    intro g h
    have h2 : (gateStep g e).ready = true := by rw [gateStep_ready, h]; rfl
    simp only [countTrans, h]
    rw [ih _ h2]
    simp

theorem countTrans_of_not_ready (tr : List GEvent) :
    ∀ g : GateState, g.ready = false →
      countTrans g tr = (if tr.any isReadyEvent then 1 else 0) := by
  induction tr with
  | nil => intro g _; rfl
  | cons e rest ih =>
    intro g h
    cases e with
    | connect id =>
      have h2 : (gateStep g (GEvent.connect id)).ready = false := by
        rw [gateStep_ready, h]; rfl
      simp only [countTrans, gateStep_ready, h, isReadyEvent, Bool.or_false]
      rw [ih _ h2]
      simp [isReadyEvent]
    | readySignal =>
      have h2 : (gateStep g GEvent.readySignal).ready = true := by
        rw [gateStep_ready, h]; rfl
      simp only [countTrans, h, h2]
      rw [countTrans_of_ready _ _ h2]
      simp [isReadyEvent]

theorem gate_ends_empty (tr : List GEvent) :
    ∀ g : GateState, g.ready = false → g.ends = [] →
      tr.any isReadyEvent = false → (tr.foldl gateStep g).ends = [] := by
  induction tr with
  | nil => intro g _ h2 _; simpa
  | cons e rest ih =>
    intro g h1 h2 h3
    cases e with
    | connect id =>
      have hany : rest.any isReadyEvent = false := by
        rw [List.any_cons] at h3
        exact (Bool.or_eq_false_iff.mp h3).2
      rw [List.foldl_cons]
      exact ih _ (by rw [gateStep_ready, h1]; rfl) (by simp [gateStep, h1, h2]) hany
    | readySignal => simp [isReadyEvent] at h3

/-- **C5** The readiness gate transitions `NotReady → Ready` exactly once
per run (once in any trace containing the ready signal, never
otherwise); while `NotReady`, no accepted connection has been closed
(each is queued, its close subscribed to `onReady`); the `Ready`
transition closes every queued connection; and any connection accepted
after the transition is closed immediately on arrival. -/
theorem readiness_gate_invariant (tr : List GEvent) (g : GateState) (id : Nat) :
    countTrans gateInit tr = (if tr.any isReadyEvent then 1 else 0)
    ∧ (tr.any isReadyEvent = false → (runGate tr).ends = [])
    ∧ (g.ready = false →
        gateStep g (GEvent.connect id) = { g with waiting := g.waiting ++ [id] })
    ∧ gateStep g GEvent.readySignal = { g with ready := true, ends := g.ends ++ g.waiting }
    ∧ (g.ready = true →
        gateStep g (GEvent.connect id) = { g with ends := g.ends ++ [id] }) := by
  refine ⟨countTrans_of_not_ready tr gateInit rfl, ?_, ?_, rfl, ?_⟩
  · intro h
    exact gate_ends_empty tr gateInit rfl rfl h
  · intro h
    simp [gateStep, h]
  · intro h
    simp [gateStep, h]

/-- Witness for C5: a connection queued before `Ready` stays open, is
closed by the transition, and a later connection is closed on arrival;
the three-event trace has exactly one transition. -/
theorem readiness_gate_invariant_witness :
    countTrans gateInit [GEvent.connect 0, GEvent.readySignal, GEvent.connect 1] = 1
    ∧ gateStep ⟨false, [], []⟩ (GEvent.connect 0) = ⟨false, [0], []⟩
    ∧ gateStep ⟨false, [0], []⟩ GEvent.readySignal = ⟨true, [0], [0]⟩
    ∧ gateStep ⟨true, [0], [0]⟩ (GEvent.connect 1) = ⟨true, [0], [0, 1]⟩ := by
  have h1 := (readiness_gate_invariant
    [GEvent.connect 0, GEvent.readySignal, GEvent.connect 1] gateInit 0).1
  have h2 := (readiness_gate_invariant [] (⟨false, [], []⟩ : GateState) 0).2.2.1 rfl
  have h3 := (readiness_gate_invariant [] (⟨false, [0], []⟩ : GateState) 0).2.2.2.1
  have h4 := (readiness_gate_invariant [] (⟨true, [0], [0]⟩ : GateState) 1).2.2.2.2 rfl
  exact ⟨by rw [h1]; decide, h2.trans (by decide), h3.trans (by decide),
    h4.trans (by decide)⟩

/-! ### Claim C6: fail-fast on missing attach configuration -/

/-- **C6** When no launch configuration named `"Attach to VS Code"`
exists, `debug()` raises the descriptive error and performs no side
effect: the wait server is never opened and no subprocess is spawned. -/
theorem missing_attach_config_fails_fast (configs : List LaunchConfig)
    (h : ∀ c ∈ configs, c.name ≠ attachConfigName) :
    debugFlow configs
      = ([], some "Could not find launch config Attach to VS Code") := by
  have hfind : configs.find? (fun c => c.name == attachConfigName) = none := by
    apply List.find?_eq_none.mpr
    intro c hc
    simp [h c hc]
  rw [debugFlow, hfind]
  rfl

/-- Witness for C6 with a workspace holding only an unrelated launch
configuration. -/
theorem missing_attach_config_fails_fast_witness :
    debugFlow [⟨"Launch Extension"⟩]
      = ([], some "Could not find launch config Attach to VS Code") :=
  missing_attach_config_fails_fast [⟨"Launch Extension"⟩] (by decide)

/-! ### Claim C9: the reporters text scan throws on malformed content -/

/-- **C9, failing evaluation** On the config content `"reporters: ]"`
(a `reporters: ` literal with no `[` before the first `]`), the scan of
`getReporters` throws a `TypeError` instead of returning a
`--reporters=` token or the empty string: the slice up to `]` is
`"reporters: "`, `split('[')` yields a single element, so index `[1]`
is `undefined` and `.split(', ')` on it throws. -/
theorem reporters_scan_throws :
    getReportersScan "reporters: ]"
      = Except.error "TypeError: Cannot read properties of undefined (reading split)" := by
  rfl

/-! ### Claim C10: root session recording -/

/-- **C10, counterexample** If the subprocess exits before any matching
session starts, a later session named `"Attach to VS Code"` is not
recorded as root — but, contrary to the claim, no stop-debugging request
is issued either (`stops = []` rather than a call with an undefined
session), because the exit handler disposed the session-start listener. -/
theorem post_exit_session_counterexample :
    (dbgRun [DbgEvent.procExit, DbgEvent.sessionStart attachConfigName 5]).rootSession = none
    ∧ (dbgRun [DbgEvent.procExit, DbgEvent.sessionStart attachConfigName 5]).stops = [] := by
  refine ⟨by decide, by decide⟩

theorem dbgRunFrom_done (tr : List DbgEvent) :
    ∀ st : DebugSessionState, st.exited = true → st.listenerActive = false →
      dbgRunFrom st tr = st := by
  induction tr with
  | nil => intro st _ _; rfl
  | cons e rest ih =>
    intro st h1 h2
    have hstep : dbgStep st e = st := by
      cases e with
      | procExit => simp [dbgStep, h1]
      | sessionStart n id => simp [dbgStep, h2]
    show dbgRunFrom (dbgStep st e) rest = st
    rw [hstep]
    exact ih st h1 h2

theorem dbgStep_root_some (st : DebugSessionState) (e : DbgEvent) (r : Nat)
    (h : st.rootSession = some r) : (dbgStep st e).rootSession = some r := by
  cases e with
  | procExit =>
    by_cases h1 : st.exited = true
    · simp [dbgStep, h1, h]
    · simp at h1
      simp [dbgStep, h1, h]
  | sessionStart n id =>
    by_cases h1 : st.listenerActive = true
    · simp [dbgStep, h1, h]
    · simp at h1
      simp [dbgStep, h1, h]

theorem dbgRunFrom_root_some (tr : List DbgEvent) :
    ∀ st : DebugSessionState, ∀ r : Nat, st.rootSession = some r →
      (dbgRunFrom st tr).rootSession = some r := by
  induction tr with
  | nil => intro st r h; exact h
  | cons e rest ih =>
    intro st r h
    exact ih _ r (dbgStep_root_some st e r h)

theorem dbgRunFrom_firstRoot (tr : List DbgEvent) :
    ∀ st : DebugSessionState, st.exited = false → st.listenerActive = true →
      st.rootSession = none → (dbgRunFrom st tr).rootSession = firstRoot tr := by
  induction tr with
  | nil => intro st _ _ h3; exact h3
  | cons e rest ih =>
    intro st h1 h2 h3
    cases e with
    | procExit =>
      have hstep : dbgStep st DbgEvent.procExit
          = { st with exited := true, listenerActive := false } := by
        simp [dbgStep, h1, h3]
      show (dbgRunFrom (dbgStep st DbgEvent.procExit) rest).rootSession = _
      rw [hstep, dbgRunFrom_done rest _ rfl rfl]
      simpa [firstRoot] using h3
    | sessionStart n id =>
      by_cases hn : n = attachConfigName
      · have hstep : dbgStep st (DbgEvent.sessionStart n id)
            = { st with rootSession := some id } := by
          simp [dbgStep, h1, h2, h3, hn]
        show (dbgRunFrom (dbgStep st (DbgEvent.sessionStart n id)) rest).rootSession = _
        rw [hstep, dbgRunFrom_root_some rest _ id rfl]
        simp [firstRoot, hn]
      · have hstep : dbgStep st (DbgEvent.sessionStart n id) = st := by
          simp [dbgStep, h2, hn]
        show (dbgRunFrom (dbgStep st (DbgEvent.sessionStart n id)) rest).rootSession = _
        rw [hstep, ih st h1 h2 h3]
        simp [firstRoot, hn]

theorem dbgStep_invariant (st : DebugSessionState) (e : DbgEvent)
    (h1 : st.listenerActive = true → st.exited = false)
    (h2 : ∀ a ∈ st.stops, a ≠ none) :
    ((dbgStep st e).listenerActive = true → (dbgStep st e).exited = false)
    ∧ ∀ a ∈ (dbgStep st e).stops, a ≠ none := by
  cases e with
  | procExit =>
    by_cases hx : st.exited = true
    · have hstep : dbgStep st DbgEvent.procExit = st := by simp [dbgStep, hx]
      rw [hstep]
      exact ⟨h1, h2⟩
    · simp at hx
      cases hr : st.rootSession with
      | none =>
        have hstep : dbgStep st DbgEvent.procExit
            = { st with exited := true, listenerActive := false } := by
          simp [dbgStep, hx, hr]
        rw [hstep]
        exact ⟨(by intro h; cases h), h2⟩
      | some r =>
        have hstep : dbgStep st DbgEvent.procExit
            = { st with exited := true, listenerActive := false,
                        stops := st.stops ++ [some r] } := by
          simp [dbgStep, hx, hr]
        rw [hstep]
        refine ⟨(by intro h; cases h), ?_⟩
        intro a ha
        rcases List.mem_append.mp ha with ha | ha
        · exact h2 a ha
        · rcases List.mem_cons.mp ha with ha | ha
          · rw [ha]; intro hcon; cases hcon
          · cases ha
  | sessionStart n id =>
    by_cases hl : st.listenerActive = true
    · have hx : st.exited = false := h1 hl
      by_cases hc : (n == attachConfigName && st.rootSession.isNone) = true
      · have hstep : dbgStep st (DbgEvent.sessionStart n id)
            = { st with rootSession := some id } := by
          simp [dbgStep, hl, hc, hx]
        rw [hstep]
        exact ⟨fun _ => hx, h2⟩
      · have hstep : dbgStep st (DbgEvent.sessionStart n id) = st := by
          simp [dbgStep, hl, hc]
        rw [hstep]
        exact ⟨h1, h2⟩
    · simp at hl
      have hstep : dbgStep st (DbgEvent.sessionStart n id) = st := by
        simp [dbgStep, hl]
      rw [hstep]
      exact ⟨h1, h2⟩

theorem dbgRunFrom_invariant (tr : List DbgEvent) :
    ∀ st : DebugSessionState,
      (st.listenerActive = true → st.exited = false) →
      (∀ a ∈ st.stops, a ≠ none) →
      ∀ a ∈ (dbgRunFrom st tr).stops, a ≠ none := by
  induction tr with
  | nil => intro st _ h2; exact h2
  | cons e rest ih =>
    intro st h1 h2
    obtain ⟨h1', h2'⟩ := dbgStep_invariant st e h1 h2
    exact ih _ h1' h2'

/-- **C10, amended** Within one debug invocation, `rootSession` is
assigned at most once: it ends up holding exactly the first session
named `"Attach to VS Code"` started before the subprocess exit (later
identically-named sessions never overwrite it, and a matching session
starting after the exit is never recorded); moreover every
stop-debugging request ever issued carries the recorded root session —
none is issued with an undefined session, the listener having been
disposed on exit. -/
theorem root_session_amended (tr : List DbgEvent) :
    (dbgRun tr).rootSession = firstRoot tr
    ∧ ∀ a ∈ (dbgRun tr).stops, a ≠ none := by
  constructor
  · exact dbgRunFrom_firstRoot tr dbgInit rfl rfl rfl
  · exact dbgRunFrom_invariant tr dbgInit (fun _ => rfl) (by intro a ha; cases ha)

/-- Witness for the amended C10: two identically-named sessions then the
exit — the first is recorded, the second ignored, and the single stop
request carries the recorded session. -/
theorem root_session_amended_witness :
    (dbgRun [DbgEvent.sessionStart attachConfigName 1,
             DbgEvent.sessionStart attachConfigName 2,
             DbgEvent.procExit]).rootSession = some 1
    ∧ (dbgRun [DbgEvent.sessionStart attachConfigName 1,
             DbgEvent.sessionStart attachConfigName 2,
             DbgEvent.procExit]).stops = [some 1] := by
  have h := root_session_amended [DbgEvent.sessionStart attachConfigName 1,
    DbgEvent.sessionStart attachConfigName 2, DbgEvent.procExit]
  exact ⟨h.1.trans (by decide), by decide⟩
